import Mathlib

/-!
Verification development for the `ce_expansion` repository: a shallow
embedding, in Lean 4, of the Bond-Centric cohesive-energy model
(`ce_expansion/atomgraph/bcm.py`), the genetic-algorithm engine
(`src/ga.py`) and the coefficient precomputation
(`src/npdb/db_inter.py`), together with theorems settling the frozen
claims about those components.

Modelling conventions:
* numpy integer arrays become `List ℕ`; out-of-range reads are written
  with `List.getD` (every theorem that needs in-range indices carries
  the corresponding hypothesis);
* floating-point values become real numbers `ℝ` (or, where the source
  only compares and never takes square roots, a generic linearly
  ordered field, so the definitions stay executable);
* calls to the `random` module become explicit oracle parameters (a
  stream of proposed indices, a sampling function, a uniform draw
  stream); every theorem holds for all oracles;
* Python `dict` literals become association lists looked up with
  "later entry wins" semantics, which reproduces the behaviour of
  duplicated dictionary keys.
-/

namespace CEExpansion

/-- Embeds `np.bincount`: for a list of naturals, the list whose `v`-th entry is
the number of occurrences of `v`, for `v` up to the maximum element.
(Embeds `np.bincount(self.bond_list[:, 0])` in `BCModel.__init__` and
`np.bincount(orderings)` in `BCModel.calc_ee`.) -/
def bincount (l : List ℕ) : List ℕ :=
  (List.range (l.foldr max 0 + 1)).map (fun v => l.count v)

/-- Coordination numbers as the source computes them:
`self.cn = np.bincount(self.bond_list[:, 0])`, read at a source index.
`bonds` is `self.bond_list` as a list of `(source, destination)` pairs. -/
def cnOf (bonds : List (ℕ × ℕ)) (i : ℕ) : ℕ :=
  (bincount (bonds.map Prod.fst)).getD i 0

/-- Embeds `BCModel.calc_ce`.  `P` is the precomputed matrix `self.precomps`
(`precomps[i, j] = gamma[M1][M2] * ce_bulk[M1]`), `bonds` is
`self.bond_list`, `N` is `len(self.atoms)` and `o` the orderings array.
The source computes
`(self.precomps[orderings[self.a1], orderings[self.a2]] / self.cn_precomps).sum() / len(self.atoms)`
with `self.cn_precomps = np.sqrt(self.cn * 12)[self.a1]`.
It reads only its arguments and the immutable precomputed state: it is a
pure function of `(o, bonds, P, N)`, which the embedding makes literal. -/
noncomputable def calcCE (P : ℕ → ℕ → ℝ) (bonds : List (ℕ × ℕ)) (N : ℕ)
    (o : List ℕ) : ℝ :=
  ((bonds.map (fun b =>
      P (o.getD b.1 0) (o.getD b.2 0) / Real.sqrt ((cnOf bonds b.1 : ℝ) * 12))).sum) / N

/-- The specification's formula for the cohesive energy: for every bond
`(source, dest)`, accumulate `precomp[o[source]][o[dest]] / sqrt(12 * CN(source))`
where `CN(source)` is the number of bonds whose source is `source`;
sum over all bonds and divide by the atom count. -/
noncomputable def specCE (P : ℕ → ℕ → ℝ) (bonds : List (ℕ × ℕ)) (N : ℕ)
    (o : List ℕ) : ℝ :=
  ((bonds.map (fun b =>
      P (o.getD b.1 0) (o.getD b.2 0) /
        Real.sqrt (12 * ((bonds.map Prod.fst).count b.1 : ℝ)))).sum) / N

/-- Embeds `BCModel.calc_ee`: excess energy.  The source computes
`metals = np.bincount(orderings)`, `x_i = metals / len(orderings)`,
starts from `calc_ce(orderings)` and, for each species index
`ele < len(metals)`, subtracts `calc_ce(np.ones(len(self), int) * ele) * x_i[ele]`. -/
noncomputable def calcEE (P : ℕ → ℕ → ℝ) (bonds : List (ℕ × ℕ)) (N : ℕ)
    (o : List ℕ) : ℝ :=
  calcCE P bonds N o -
    ((List.range (bincount o).length).map (fun ele =>
        calcCE P bonds N (List.replicate N ele) *
          (((bincount o).getD ele 0 : ℝ) / (o.length : ℝ)))).sum

/-- Every member of a list of naturals is at most its `foldr max 0`. -/
lemma le_foldr_max (l : List ℕ) (i : ℕ) (hmem : i ∈ l) :
    i ≤ l.foldr max 0 := by
  induction l with
  | nil => simp at hmem
  | cons a t ih =>
    rcases List.mem_cons.mp hmem with h | h
    · simp only [List.foldr, h, le_max_iff, le_refl, true_or]
    · simp only [List.foldr, le_max_iff]
      exact Or.inr (ih h)

/-- Reading the bincount of the sources at any index gives the number of
bonds with that source. -/
lemma bincount_getD (l : List ℕ) (i : ℕ) :
    (bincount l).getD i 0 = l.count i := by
  unfold bincount
  rcases lt_or_le i (l.foldr max 0 + 1) with h | h
  · rw [List.getD_eq_getElem?_getD, List.getElem?_map,
      List.getElem?_range h]
    simp
  · rw [List.getD_eq_getElem?_getD, List.getElem?_map]
    have hnone : (List.range (l.foldr max 0 + 1))[i]? = none := by
      rw [List.getElem?_eq_none_iff]
      simpa using h
    rw [hnone]
    have hcnt : l.count i = 0 := by
      rw [List.count_eq_zero]
      intro hmem
      have := le_foldr_max l i hmem
      omega
    simp [hcnt]

/-- The maximum entry of `replicate N 0` is `0`. -/
lemma foldr_max_replicate_zero (N : ℕ) :
    (List.replicate N 0).foldr max 0 = 0 := by
  induction N with
  | zero => rfl
  | succ n ih => simp [List.replicate_succ, ih]

/-- For `N > 0` the maximum entry of `replicate N 1` is `1`. -/
lemma foldr_max_replicate_one (N : ℕ) (hN : 0 < N) :
    (List.replicate N 1).foldr max 0 = 1 := by
  induction N with
  | zero => omega
  | succ n ih =>
    rcases Nat.eq_zero_or_pos n with h | h
    · subst h; rfl
    · simp [List.replicate_succ, ih h]

/-- C1.  `BCModel.calc_ce` computes exactly the specified formula: for an
ordering whose length equals the atom count, the result is the sum over
all bonds `(source, dest)` of
`precomp[o[source]][o[dest]] / sqrt(12 * CN(source))`, divided by the
number of atoms, where `CN(source)` counts the bonds with that source.
(Purity holds by construction: `calcCE` is a function of its arguments
alone; the source method likewise only reads `self.precomps`,
`self.cn_precomps`, `self.a1`, `self.a2` and `orderings` and writes no
state.) -/
theorem calc_ce_matches_spec (P : ℕ → ℕ → ℝ) (bonds : List (ℕ × ℕ))
    (N : ℕ) (o : List ℕ) (h : o.length = N) :
    calcCE P bonds N o = specCE P bonds N o := by
  unfold calcCE specCE
  congr 1
  congr 1
  apply List.map_congr_left
  intro b _
  simp only [cnOf, bincount_getD]
  rw [mul_comm ((List.count b.1 (List.map Prod.fst bonds) : ℝ)) 12]

/-- Witness for C1 at a concrete input. -/
theorem calc_ce_matches_spec_witness :
    ([0, 1] : List ℕ).length = 2 ∧
      calcCE (fun _ _ => 1) [(0, 1)] 2 [0, 1] =
        specCE (fun _ _ => 1) [(0, 1)] 2 [0, 1] :=
  ⟨rfl, calc_ce_matches_spec (fun _ _ => 1) [(0, 1)] 2 [0, 1] rfl⟩

/-- C8.  For a pure (monometallic) ordering — all zeros or all ones over
the `N` atoms — `BCModel.calc_ee` returns exactly `0`:
`np.bincount` of the all-`k` ordering puts the whole weight `N/N = 1` on
species `k`, so the subtracted reference is exactly `calc_ce` of the
same ordering. -/
theorem calc_ee_pure_zero (P : ℕ → ℕ → ℝ) (bonds : List (ℕ × ℕ))
    (N : ℕ) (hN : 0 < N) :
    calcEE P bonds N (List.replicate N 0) = 0 ∧
      calcEE P bonds N (List.replicate N 1) = 0 := by
  have hne : (N : ℝ) ≠ 0 := Nat.cast_ne_zero.mpr hN.ne'
  have h1 : List.range 1 = [0] := by decide
  have h2 : List.range 2 = [0, 1] := by decide
  constructor
  · unfold calcEE
    have hb : bincount (List.replicate N 0) = [N] := by
      unfold bincount
      rw [foldr_max_replicate_zero]
      simp only [zero_add, h1, List.map_cons, List.map_nil,
        List.count_replicate]
      simp
    rw [hb]
    have hlen : ([N] : List ℕ).length = 1 := rfl
    rw [hlen, h1]
    simp only [List.map_cons, List.map_nil, List.sum_cons, List.sum_nil,
      List.getD_cons_zero, List.length_replicate, add_zero]
    rw [div_self hne]
    ring
  · unfold calcEE
    have hb : bincount (List.replicate N 1) = [0, N] := by
      unfold bincount
      rw [foldr_max_replicate_one N hN]
      have h12 : (1 : ℕ) + 1 = 2 := rfl
      rw [h12, h2]
      simp only [List.map_cons, List.map_nil, List.count_replicate]
      simp
    rw [hb]
    have hlen : ([0, N] : List ℕ).length = 2 := rfl
    rw [hlen, h2]
    simp only [List.map_cons, List.map_nil, List.sum_cons, List.sum_nil,
      List.getD_cons_zero, List.getD_cons_succ,
      List.length_replicate, add_zero]
    rw [div_self hne]
    push_cast
    ring

/-- Witness for C8 at a concrete input. -/
theorem calc_ee_pure_zero_witness :
    0 < 3 ∧
      (calcEE (fun _ _ => 1) [(0, 1)] 3 (List.replicate 3 0) = 0 ∧
        calcEE (fun _ _ => 1) [(0, 1)] 3 (List.replicate 3 1) = 0) :=
  ⟨by decide, calc_ee_pure_zero (fun _ _ => 1) [(0, 1)] 3 (by decide)⟩

/-- Embeds `Pop.__init__`: `self.nkill = int(popsize * kill_rate)`.
`kill_rate` is a nonnegative fraction, so Python's truncating `int()`
agrees with the floor. -/
def nkill (popsize : ℕ) (kill_rate : ℚ) : ℕ :=
  (⌊(popsize : ℚ) * kill_rate⌋).toNat

/-- The truncation at the start of a non-random `Pop.step`
(`self.pop = self.pop[:self.nkill]`, under the comment
"kill off <kill_rate>% of pop").  `pop` is sorted ascending by energy,
so the prefix is the top of the population. -/
def stepSurvivors {α : Type} (popsize : ℕ) (kill_rate : ℚ)
    (pop : List α) : List α :=
  pop.take (nkill popsize kill_rate)

/-- C2.  The code keeps `int(popsize * kill_rate)` survivors — the
`kill_rate` fraction — rather than the claimed `(1 - kill_rate) *
popsize`: with `popsize = 10` and `kill_rate = 1/5` a full population of
10 is cut to 2 survivors, not 8.  This contradicts both the claim and
the source's own comment ("kill off <kill_rate>% of pop" would leave
8), so the code, not the claim, is wrong. -/
theorem step_truncation_keeps_kill_fraction :
    (stepSurvivors 10 (1/5) (List.range 10)).length = 2 ∧
      ((1 - 1/5 : ℚ) * 10 = 8 ∧ (2 : ℕ) ≠ 8) := by
  have hk : nkill 10 (1/5) = 2 := by
    unfold nkill
    norm_num
    decide
  refine ⟨?_, by norm_num, by decide⟩
  rw [stepSurvivors, hk]
  rfl

/-- The generation loop of `Pop.run`:
`for i in range(int(nsteps)): self.step(rand); if self.stats[-1][2] < std_cut: break`.
`stds k` is the population standard deviation recorded by the `k`-th
`step` call (the randomness of `step` is abstracted into this stream);
the result is the number of `step` calls executed, accumulated in the
second argument.  Note the comparison is strict (`<`). -/
def runLoopCount {α : Type} [LinearOrder α] (std_cut : α) (stds : ℕ → α) :
    ℕ → ℕ → ℕ
  | 0, i => i
  | fuel + 1, i =>
      if stds i < std_cut then i + 1
      else runLoopCount std_cut stds fuel (i + 1)

/-- Embeds `Pop.run`: the loop is skipped entirely when
`self.n_dope in [0, self.atomg.num_atoms]` (monometallic); otherwise it
runs `runLoopCount` starting from step index 0.  Returns the number of
`step` calls executed. -/
def runCount {α : Type} [LinearOrder α] (n_dope num_atoms nsteps : ℕ)
    (std_cut : α) (stds : ℕ → α) : ℕ :=
  if n_dope = 0 ∨ n_dope = num_atoms then 0
  else runLoopCount std_cut stds nsteps 0

/-- The claim's version of the loop, written from the specification's
words: stop early once the standard deviation drops *at or below*
(`≤`) the convergence threshold. -/
def runLoopCountSpec {α : Type} [LinearOrder α] (std_cut : α)
    (stds : ℕ → α) : ℕ → ℕ → ℕ
  | 0, i => i
  | fuel + 1, i =>
      if stds i ≤ std_cut then i + 1
      else runLoopCountSpec std_cut stds fuel (i + 1)

/-- The claim's version of `Pop.run`'s step count. -/
def runCountSpec {α : Type} [LinearOrder α] (n_dope num_atoms nsteps : ℕ)
    (std_cut : α) (stds : ℕ → α) : ℕ :=
  if n_dope = 0 ∨ n_dope = num_atoms then 0
  else runLoopCountSpec std_cut stds nsteps 0

/-- C7 counterexample.  When every generation's standard deviation is
exactly equal to `std_cut`, the claim ("stops early once the std drops
at or below the threshold") predicts the run stops after one step, but
the code's strict `<` comparison never fires and all `nsteps = 2` steps
run. -/
theorem run_stop_at_threshold_counterexample :
    runCountSpec 1 3 2 (1 : ℚ) (fun _ => 1) = 1 ∧
      runCount 1 3 2 (1 : ℚ) (fun _ => 1) = 2 ∧ (1 : ℕ) ≠ 2 := by
  refine ⟨?_, ?_, by decide⟩ <;> decide

/-- Structural description of the code's run loop: starting at index
`i` with `fuel` steps remaining, the final count lies between `i` and
`i + fuel`, no step other than the last saw a strictly sub-threshold
std, and an early exit happens only on a strictly sub-threshold std. -/
lemma runLoopCount_charact {α : Type} [LinearOrder α] (std_cut : α)
    (stds : ℕ → α) (fuel i : ℕ) :
    i ≤ runLoopCount std_cut stds fuel i ∧
      runLoopCount std_cut stds fuel i ≤ i + fuel ∧
      (∀ k, i ≤ k → k + 1 < runLoopCount std_cut stds fuel i →
        ¬ stds k < std_cut) ∧
      (runLoopCount std_cut stds fuel i < i + fuel →
        stds (runLoopCount std_cut stds fuel i - 1) < std_cut) := by
  induction fuel generalizing i with
  | zero =>
    have h0 : runLoopCount std_cut stds 0 i = i := rfl
    refine ⟨by omega, by omega, ?_, by omega⟩
    intro k hk hlt
    rw [h0] at hlt
    omega
  | succ n ih =>
    by_cases h : stds i < std_cut
    · simp only [runLoopCount, if_pos h]
      refine ⟨by omega, by omega, ?_, ?_⟩
      · intro k hk hlt; omega
      · intro _; simpa using h
    · simp only [runLoopCount, if_neg h]
      obtain ⟨ih1, ih2, ih3, ih4⟩ := ih (i + 1)
      refine ⟨by omega, by omega, ?_, ?_⟩
      · intro k hk hlt
        rcases Nat.eq_or_lt_of_le hk with rfl | hk'
        · exact h
        · exact ih3 k hk' hlt
      · intro hlt
        exact ih4 (by omega)

/-- C7 amended.  `Pop.run` iterates `step` at most `nsteps` times;
monometallic compositions (`n_dope` equal to 0 or to the atom count)
skip the generation loop entirely; and the loop stops early only once
the current generation's standard deviation drops *strictly below*
`std_cut` (not "at or below"): every step before the last saw a std not
strictly below the cut, and any early stop is caused by a std strictly
below the cut. -/
theorem run_loop_amended {α : Type} [LinearOrder α]
    (n_dope num_atoms nsteps : ℕ) (std_cut : α) (stds : ℕ → α) :
    runCount n_dope num_atoms nsteps std_cut stds ≤ nsteps ∧
      ((n_dope = 0 ∨ n_dope = num_atoms) →
        runCount n_dope num_atoms nsteps std_cut stds = 0) ∧
      (∀ k, k + 1 < runCount n_dope num_atoms nsteps std_cut stds →
        ¬ stds k < std_cut) ∧
      (¬(n_dope = 0 ∨ n_dope = num_atoms) →
        runCount n_dope num_atoms nsteps std_cut stds < nsteps →
        stds (runCount n_dope num_atoms nsteps std_cut stds - 1) < std_cut) := by
  by_cases h : n_dope = 0 ∨ n_dope = num_atoms
  · have hz : runCount n_dope num_atoms nsteps std_cut stds = 0 := by
      unfold runCount; exact if_pos h
    exact ⟨by omega, fun _ => hz, fun k hk => by omega, fun hc => (hc h).elim⟩
  · have hz : runCount n_dope num_atoms nsteps std_cut stds =
        runLoopCount std_cut stds nsteps 0 := by
      unfold runCount; exact if_neg h
    obtain ⟨h1, h2, h3, h4⟩ := runLoopCount_charact std_cut stds nsteps 0
    refine ⟨by omega, fun hm => (h hm).elim, ?_, ?_⟩
    · intro k hk
      exact h3 k (Nat.zero_le k) (hz ▸ hk)
    · intro _ hlt
      rw [hz]
      exact h4 (by omega)

/-- Witness for C7 amended at concrete inputs: a bimetallic run with a
2-step budget executes at most 2 steps, and a monometallic run executes
none. -/
theorem run_loop_amended_witness :
    runCount 1 3 2 (1 : ℚ) (fun _ => 1) ≤ 2 ∧
      runCount 0 3 2 (1 : ℚ) (fun _ => 1) = 0 :=
  ⟨(run_loop_amended 1 3 2 (1 : ℚ) (fun _ => 1)).1,
    (run_loop_amended 0 3 2 (1 : ℚ) (fun _ => 1)).2.1 (Or.inl rfl)⟩

/-- Python's `int()` applied to a rational: truncation toward zero. -/
def pyInt (q : ℚ) : ℤ :=
  if 0 ≤ q then ⌊q⌋ else -⌊-q⌋

/-- The data a constructed `Chromo` carries (its ordering array and its
`n_dope` attribute); the cached energy score is a pure function of the
array and is not repeated here. -/
structure ChromoData where
  arr : List ℕ
  n_dope : ℤ
  deriving Repr, DecidableEq

/-- Embeds `Chromo.__init__`.  `num_atoms` is `atomg.num_atoms`, `n_dope` the
explicit argument (Python default 0), `arr` the optional ordering,
`x_dope` the optional dopant fraction, and `shuffle` an oracle standing
for `np.random.shuffle`.  Faithful points: `self.n_dope` is
`int(num_atoms * x_dope)` when `x_dope` is given, else the argument;
the `ValueError` test reads the *argument* `n_dope`, not
`self.n_dope`; a supplied array overrides `self.n_dope` with its sum;
the random branch fills the first `n_dope` (again the argument) slots
with ones before shuffling. -/
def chromoInit (num_atoms n_dope : ℕ) (arr : Option (List ℕ))
    (x_dope : Option ℚ) (shuffle : List ℕ → List ℕ) :
    Except String ChromoData :=
  let nd0 : ℤ :=
    match x_dope with
    | some x => pyInt ((num_atoms : ℚ) * x)
    | none => (n_dope : ℤ)
  if n_dope > num_atoms then
    .error "Can't dope more atoms than there are atoms..."
  else
    match arr with
    | some a => .ok ⟨a, (a.sum : ℤ)⟩
    | none =>
        .ok ⟨shuffle (List.replicate n_dope 1 ++
               List.replicate (num_atoms - n_dope) 0), nd0⟩

/-- C9.  `Chromo` construction validates only the explicit `n_dope`
argument: (1) with `x_dope` supplied, the derived count
`int(num_atoms * x_dope)` is never checked, so any `x_dope > 1`
constructs successfully (with the default explicit argument 0) and the
stored `n_dope` is the unchecked derived value; (2) with an ordering
array supplied, construction still raises whenever the explicit
`n_dope` argument exceeds the atom count; (3) when it does not raise,
the array branch overrides the stored count with the array's sum. -/
theorem chromo_init_validation (num_atoms nd : ℕ) (a : List ℕ)
    (x : ℚ) (xd : Option ℚ) (shuffle : List ℕ → List ℕ)
    (hx : 1 < x) (hnd : nd > num_atoms) :
    (∃ c : ChromoData,
        chromoInit num_atoms 0 none (some x) shuffle = .ok c ∧
          c.n_dope = pyInt ((num_atoms : ℚ) * x)) ∧
      chromoInit num_atoms nd (some a) xd shuffle =
        .error "Can't dope more atoms than there are atoms..." ∧
      (nd > num_atoms → ∀ nd' ≤ num_atoms,
        chromoInit num_atoms nd' (some a) xd shuffle =
          .ok ⟨a, (a.sum : ℤ)⟩) := by
  refine ⟨⟨⟨shuffle (List.replicate 0 1 ++ List.replicate (num_atoms - 0) 0),
      pyInt ((num_atoms : ℚ) * x)⟩, ?_, rfl⟩, ?_, ?_⟩
  · unfold chromoInit
    rw [if_neg (by omega)]
  · unfold chromoInit
    rw [if_pos hnd]
  · intro _ nd' hnd'
    unfold chromoInit
    rw [if_neg (by omega)]

/-- Witness for C9 at concrete inputs. -/
theorem chromo_init_validation_witness :
    (1 : ℚ) < 2 ∧ 5 > 3 ∧
      ((∃ c : ChromoData,
          chromoInit 3 0 none (some 2) id = .ok c ∧
            c.n_dope = pyInt ((3 : ℚ) * 2)) ∧
        chromoInit 3 5 (some [1, 1, 0]) none id =
          .error "Can't dope more atoms than there are atoms..." ∧
        (5 > 3 → ∀ nd' ≤ 3,
          chromoInit 3 nd' (some [1, 1, 0]) none id =
            .ok ⟨[1, 1, 0], (([1, 1, 0] : List ℕ).sum : ℤ)⟩)) :=
  ⟨by norm_num, by decide,
    chromo_init_validation 3 5 [1, 1, 0] 2 none id (by norm_num) (by decide)⟩

/-- Reading `(l.set i v).getD j 0` away from the written index gives `l.getD j 0`. -/
lemma getD_set_ne (l : List ℕ) (i j v : ℕ) (h : i ≠ j) :
    (l.set i v).getD j 0 = l.getD j 0 := by
  induction l generalizing i j with
  | nil => simp [List.set]
  | cons a t ih =>
    cases i with
    | zero =>
      cases j with
      | zero => omega
      | succ m => simp [List.set]
    | succ n =>
      cases j with
      | zero => simp [List.set]
      | succ m =>
        simp only [List.set, List.getD_cons_succ]
        exact ih n m (by omega)

/-- Writing `v` at an in-range index trades the old entry's
contribution to `count 1` for the new one's. -/
lemma count1_set (l : List ℕ) (i v : ℕ) (hi : i < l.length) :
    (l.set i v).count 1 + (if l.getD i 0 = 1 then 1 else 0) =
      l.count 1 + (if v = 1 then 1 else 0) := by
  induction l generalizing i with
  | nil => simp at hi
  | cons a t ih =>
    cases i with
    | zero =>
      simp only [List.set, List.getD_cons_zero, List.count_cons]
      by_cases hv : v = 1 <;> by_cases ha : a = 1 <;>
        simp [hv, ha] <;> omega
    | succ n =>
      simp only [List.set, List.getD_cons_succ, List.count_cons]
      have ih' := ih n (by simpa using hi)
      omega

/-- The inner `while` loop of one swap in `Chromo.mutate`:
`draws` is the stream of `random.randint(0, num_atoms - 1)` values,
`used` the shared index-exclusion list, `(c0, c1)` the `changed`
flags.  An index not yet used that reads 0 (resp. 1) and whose flag is
still unset is flipped to 1 (resp. 0); the loop exits once both flags
are set.  Returns the unconsumed draw stream, the new array and the
grown `used` list; `none` models exhausting the stream without
completing the swap (the source would spin forever). -/
def swapLoop : List ℕ → List ℕ → List ℕ → Bool → Bool →
    Option (List ℕ × List ℕ × List ℕ)
  | draws, arr, used, c0, c1 =>
    if c0 && c1 then some (draws, arr, used)
    else
      match draws with
      | [] => none
      | i :: rest =>
          if i ∈ used then swapLoop rest arr used c0 c1
          else if arr.getD i 0 = 0 ∧ c0 = false then
            swapLoop rest (arr.set i 1) (used ++ [i]) true c1
          else if arr.getD i 0 = 1 ∧ c1 = false then
            swapLoop rest (arr.set i 0) (used ++ [i]) c0 true
          else swapLoop rest arr used c0 c1

/-- The `for i in range(nps)` loop of `Chromo.mutate`: `nps`
independent swaps sharing the `used` list and the draw stream. -/
def mutateSwaps : ℕ → List ℕ → List ℕ → List ℕ → Option (List ℕ)
  | 0, _, arr, _ => some arr
  | n + 1, draws, arr, used =>
      match swapLoop draws arr used false false with
      | none => none
      | some (rest, arr', used') => mutateSwaps n rest arr' used'

/-- Embeds `Chromo.mutate(nps)` on the ordering array.  The monometallic guard
compares `self.n_dope` (the array's sum, for an array-built chromosome)
with `self.num_atoms` (the array length) and returns the array
unchanged with only a printed warning. -/
def mutate (arr : List ℕ) (nps : ℕ) (draws : List ℕ) : Option (List ℕ) :=
  if arr.sum = 0 ∨ arr.sum = arr.length then some arr
  else mutateSwaps nps draws arr []

/-- A completed swap flips exactly one 0 to 1 and one 1 to 0: relative
to the `changed` flags, `count 1` satisfies
`count' + flag0 = count + flag1`; with both flags initially unset the
count is preserved.  The array length and the bound on the remaining
draw stream are also preserved. -/
lemma swapLoop_count (draws : List ℕ) (arr used : List ℕ) (c0 c1 : Bool)
    (hdr : ∀ i ∈ draws, i < arr.length)
    (rest arr' used' : List ℕ)
    (h : swapLoop draws arr used c0 c1 = some (rest, arr', used')) :
    arr'.count 1 + Bool.toNat c0 = arr.count 1 + Bool.toNat c1 ∧
      arr'.length = arr.length ∧ ∀ i ∈ rest, i ∈ draws := by
  induction draws generalizing arr used c0 c1 with
  | nil =>
    rw [swapLoop] at h
    by_cases hcc : (c0 && c1) = true
    · rw [if_pos hcc] at h
      obtain ⟨hc0, hc1⟩ := Bool.and_eq_true_iff.mp hcc
      subst hc0; subst hc1
      have ht := Option.some.inj h
      obtain ⟨h1, h2, h3⟩ : ([] : List ℕ) = rest ∧ arr = arr' ∧ used = used' := by
        simpa [Prod.ext_iff] using ht
      subst h1; subst h2; subst h3
      exact ⟨rfl, rfl, fun j hj => hj⟩
    · rw [if_neg hcc] at h
      exact absurd h (by simp)
  | cons i rest0 ih =>
    rw [swapLoop] at h
    by_cases hcc : (c0 && c1) = true
    · rw [if_pos hcc] at h
      obtain ⟨hc0, hc1⟩ := Bool.and_eq_true_iff.mp hcc
      subst hc0; subst hc1
      have ht := Option.some.inj h
      obtain ⟨h1, h2, h3⟩ : i :: rest0 = rest ∧ arr = arr' ∧ used = used' := by
        simpa [Prod.ext_iff] using ht
      subst h1; subst h2; subst h3
      exact ⟨rfl, rfl, fun j hj => hj⟩
    · rw [if_neg hcc] at h
      by_cases hu : i ∈ used
      · rw [if_pos hu] at h
        obtain ⟨e1, e2, e3⟩ := ih arr used c0 c1
          (fun j hj => hdr j (List.mem_cons_of_mem i hj)) h
        exact ⟨e1, e2, fun j hj => List.mem_cons_of_mem i (e3 j hj)⟩
      · rw [if_neg hu] at h
        by_cases h0 : arr.getD i 0 = 0 ∧ c0 = false
        · rw [if_pos h0] at h
          obtain ⟨hg0, hcf⟩ := h0
          subst hcf
          have hi : i < arr.length := hdr i (List.mem_cons_self i rest0)
          obtain ⟨e1, e2, e3⟩ := ih (arr.set i 1) (used ++ [i]) true c1
            (fun j hj => by
              rw [List.length_set]
              exact hdr j (List.mem_cons_of_mem i hj)) h
          have hc : (arr.set i 1).count 1 = arr.count 1 + 1 := by
            have hc0 := count1_set arr i 1 hi
            rw [hg0] at hc0
            simpa using hc0
          rw [List.length_set] at e2
          simp only [Bool.toNat_true, Bool.toNat_false] at e1 ⊢
          exact ⟨by omega, e2, fun j hj => List.mem_cons_of_mem i (e3 j hj)⟩
        · rw [if_neg h0] at h
          by_cases h1 : arr.getD i 0 = 1 ∧ c1 = false
          · rw [if_pos h1] at h
            obtain ⟨hg1, hcf⟩ := h1
            subst hcf
            have hi : i < arr.length := hdr i (List.mem_cons_self i rest0)
            obtain ⟨e1, e2, e3⟩ := ih (arr.set i 0) (used ++ [i]) c0 true
              (fun j hj => by
                rw [List.length_set]
                exact hdr j (List.mem_cons_of_mem i hj)) h
            have hc : (arr.set i 0).count 1 + 1 = arr.count 1 := by
              have hc0 := count1_set arr i 0 hi
              rw [hg1] at hc0
              simpa using hc0
            rw [List.length_set] at e2
            simp only [Bool.toNat_true, Bool.toNat_false] at e1 ⊢
            exact ⟨by omega, e2, fun j hj => List.mem_cons_of_mem i (e3 j hj)⟩
          · rw [if_neg h1] at h
            obtain ⟨e1, e2, e3⟩ := ih arr used c0 c1
              (fun j hj => hdr j (List.mem_cons_of_mem i hj)) h
            exact ⟨e1, e2, fun j hj => List.mem_cons_of_mem i (e3 j hj)⟩

/-- Chained swaps preserve `count 1`. -/
lemma mutateSwaps_count (nps : ℕ) (draws arr used : List ℕ)
    (hdr : ∀ i ∈ draws, i < arr.length) (arr' : List ℕ)
    (h : mutateSwaps nps draws arr used = some arr') :
    arr'.count 1 = arr.count 1 := by
  induction nps generalizing draws arr used with
  | zero =>
    simp only [mutateSwaps] at h
    exact (Option.some.inj h) ▸ rfl
  | succ n ih =>
    simp only [mutateSwaps] at h
    rcases hs : swapLoop draws arr used false false with _ | ⟨rest, arr1, used1⟩
    · rw [hs] at h; exact absurd h (by simp)
    · rw [hs] at h
      obtain ⟨e1, e2, e3⟩ := swapLoop_count draws arr used false false hdr
        rest arr1 used1 hs
      have := ih rest arr1 used1
        (fun j hj => by rw [e2]; exact hdr j (e3 j hj)) h
      simp only [Bool.toNat_false] at e1
      omega

/-- Embeds `np.where(child1 == 1)[0]` in `Chromo.cross`: the positions of the
ones of the first parent, computed once before any swap. -/
def onesIdx (l : List ℕ) : List ℕ :=
  (List.range l.length).filter (fun i => decide (l.getD i 0 = 1))

/-- Embeds `np.where(child1 != child2)[0][::-1]` in `Chromo.cross`: the
positions where the two parents differ, in reverse index order. -/
def diffIdx (l1 l2 : List ℕ) : List ℕ :=
  ((List.range l1.length).filter
    (fun i => decide (l1.getD i 0 ≠ l2.getD i 0))).reverse

/-- The `for i in diff` loop of `Chromo.cross`: at a differing position
that is among the first parent's original ones, while budget `s1` lasts,
move the 1 from child1 to child2; at other differing positions, while
budget `s2` lasts, move the 1 from child2 to child1; stop once both
budgets are exhausted (`if s1 == s2 == 0: break`, tested after the
possible swap). -/
def crossLoop (ones : List ℕ) : List ℕ → List ℕ → List ℕ → ℕ → ℕ →
    List ℕ × List ℕ
  | [], c1, c2, _, _ => (c1, c2)
  | i :: rest, c1, c2, s1, s2 =>
      if i ∈ ones then
        if s1 ≠ 0 then
          if s1 - 1 = 0 ∧ s2 = 0 then (c1.set i 0, c2.set i 1)
          else crossLoop ones rest (c1.set i 0) (c2.set i 1) (s1 - 1) s2
        else
          if s1 = 0 ∧ s2 = 0 then (c1, c2)
          else crossLoop ones rest c1 c2 s1 s2
      else
        if s2 ≠ 0 then
          if s1 = 0 ∧ s2 - 1 = 0 then (c1.set i 1, c2.set i 0)
          else crossLoop ones rest (c1.set i 1) (c2.set i 0) s1 (s2 - 1)
        else
          if s1 = 0 ∧ s2 = 0 then (c1, c2)
          else crossLoop ones rest c1 c2 s1 s2

/-- Embeds `Chromo.cross` on the ordering arrays: children start as copies of
the parents, and the differing positions are walked in reverse order
with both swap budgets set to 2.  (The source then wraps each child in
a new `Chromo` and asserts `child1.sum() == child2.sum() == self.n_dope`;
the theorem below proves those assertions hold.) -/
def crossArrs (p1 p2 : List ℕ) : List ℕ × List ℕ :=
  crossLoop (onesIdx p1) (diffIdx p1 p2) p1 p2 2 2

/-- Counting invariant of the crossover walk: processing `ds` applies
`min s1 t1` type-1 swaps (positions in `ones`) and `min s2 t2` type-2
swaps, where `t1`/`t2` count the positions of each type in `ds`; each
type-1 swap moves a 1 from child1 to child2 and each type-2 swap the
reverse. -/
lemma crossLoop_count (ones : List ℕ) (ds : List ℕ) :
    ∀ (c1 c2 : List ℕ) (s1 s2 : ℕ),
      ds.Nodup →
      (∀ i ∈ ds, i < c1.length ∧ i < c2.length ∧
        (i ∈ ones → c1.getD i 0 = 1 ∧ c2.getD i 0 = 0) ∧
        (i ∉ ones → c1.getD i 0 = 0 ∧ c2.getD i 0 = 1)) →
      (crossLoop ones ds c1 c2 s1 s2).1.count 1 +
          min s1 (ds.countP (fun i => decide (i ∈ ones))) =
        c1.count 1 + min s2 (ds.countP (fun i => decide (i ∉ ones))) ∧
      (crossLoop ones ds c1 c2 s1 s2).2.count 1 +
          min s2 (ds.countP (fun i => decide (i ∉ ones))) =
        c2.count 1 + min s1 (ds.countP (fun i => decide (i ∈ ones))) := by
  induction ds with
  | nil =>
    intro c1 c2 s1 s2 _ _
    simp [crossLoop]
  | cons i rest ih =>
    intro c1 c2 s1 s2 hnd hval
    have hnd' : rest.Nodup := hnd.of_cons
    have hine : i ∉ rest := (List.nodup_cons.mp hnd).1
    obtain ⟨hi1, hi2, hmem, hnmem⟩ := hval i (List.mem_cons_self i rest)
    have hval' : ∀ (d1 d2 : List ℕ),
        (∀ j ∈ rest, j < d1.length ∧ j < d2.length ∧
          (j ∈ ones → d1.getD j 0 = 1 ∧ d2.getD j 0 = 0) ∧
          (j ∉ ones → d1.getD j 0 = 0 ∧ d2.getD j 0 = 1)) →
        True := fun _ _ _ => trivial
    by_cases hin : i ∈ ones
    · have hc1 : c1.getD i 0 = 1 := (hmem hin).1
      have hc2 : c2.getD i 0 = 0 := (hmem hin).2
      have hcnt1 : (c1.set i 0).count 1 + 1 = c1.count 1 := by
        have h := count1_set c1 i 0 hi1
        rw [hc1] at h
        simpa using h
      have hcnt2 : (c2.set i 1).count 1 = c2.count 1 + 1 := by
        have h := count1_set c2 i 1 hi2
        rw [hc2] at h
        simpa using h
      have hT1 : (i :: rest).countP (fun j => decide (j ∈ ones)) =
          rest.countP (fun j => decide (j ∈ ones)) + 1 := by
        simp [List.countP_cons, hin]
      have hT2 : (i :: rest).countP (fun j => decide (j ∉ ones)) =
          rest.countP (fun j => decide (j ∉ ones)) := by
        simp [List.countP_cons, hin]
      by_cases hs1 : s1 ≠ 0
      · by_cases hbrk : s1 - 1 = 0 ∧ s2 = 0
        · rw [crossLoop, if_pos hin, if_pos hs1, if_pos hbrk]
          rw [hT1, hT2]
          try dsimp only
          constructor <;> omega
        · rw [crossLoop, if_pos hin, if_pos hs1, if_neg hbrk]
          have hrest : ∀ j ∈ rest, j < (c1.set i 0).length ∧
              j < (c2.set i 1).length ∧
              (j ∈ ones → (c1.set i 0).getD j 0 = 1 ∧
                (c2.set i 1).getD j 0 = 0) ∧
              (j ∉ ones → (c1.set i 0).getD j 0 = 0 ∧
                (c2.set i 1).getD j 0 = 1) := by
            intro j hj
            have hji : i ≠ j := fun he => hine (he ▸ hj)
            obtain ⟨a1, a2, a3, a4⟩ := hval j (List.mem_cons_of_mem i hj)
            rw [List.length_set, List.length_set,
              getD_set_ne c1 i j 0 hji, getD_set_ne c2 i j 1 hji]
            exact ⟨a1, a2, a3, a4⟩
          obtain ⟨e1, e2⟩ := ih (c1.set i 0) (c2.set i 1) (s1 - 1) s2
            hnd' hrest
          rw [hT1, hT2]
          try dsimp only
          constructor <;> omega
      · push_neg at hs1
        subst hs1
        by_cases hs2 : (0 : ℕ) = 0 ∧ s2 = 0
        · rw [crossLoop, if_pos hin, if_neg (by omega), if_pos hs2]
          rw [hT1, hT2]
          try dsimp only
          constructor <;> omega
        · rw [crossLoop, if_pos hin, if_neg (by omega), if_neg hs2]
          obtain ⟨e1, e2⟩ := ih c1 c2 0 s2 hnd'
            (fun j hj => hval j (List.mem_cons_of_mem i hj))
          rw [hT1, hT2]
          try dsimp only
          constructor <;> omega
    · have hc1 : c1.getD i 0 = 0 := (hnmem hin).1
      have hc2 : c2.getD i 0 = 1 := (hnmem hin).2
      have hcnt1 : (c1.set i 1).count 1 = c1.count 1 + 1 := by
        have h := count1_set c1 i 1 hi1
        rw [hc1] at h
        simpa using h
      have hcnt2 : (c2.set i 0).count 1 + 1 = c2.count 1 := by
        have h := count1_set c2 i 0 hi2
        rw [hc2] at h
        simpa using h
      have hT1 : (i :: rest).countP (fun j => decide (j ∈ ones)) =
          rest.countP (fun j => decide (j ∈ ones)) := by
        simp [List.countP_cons, hin]
      have hT2 : (i :: rest).countP (fun j => decide (j ∉ ones)) =
          rest.countP (fun j => decide (j ∉ ones)) + 1 := by
        simp [List.countP_cons, hin]
      by_cases hs2 : s2 ≠ 0
      · by_cases hbrk : s1 = 0 ∧ s2 - 1 = 0
        · rw [crossLoop, if_neg hin, if_pos hs2, if_pos hbrk]
          rw [hT1, hT2]
          try dsimp only
          constructor <;> omega
        · rw [crossLoop, if_neg hin, if_pos hs2, if_neg hbrk]
          have hrest : ∀ j ∈ rest, j < (c1.set i 1).length ∧
              j < (c2.set i 0).length ∧
              (j ∈ ones → (c1.set i 1).getD j 0 = 1 ∧
                (c2.set i 0).getD j 0 = 0) ∧
              (j ∉ ones → (c1.set i 1).getD j 0 = 0 ∧
                (c2.set i 0).getD j 0 = 1) := by
            intro j hj
            have hji : i ≠ j := fun he => hine (he ▸ hj)
            obtain ⟨a1, a2, a3, a4⟩ := hval j (List.mem_cons_of_mem i hj)
            rw [List.length_set, List.length_set,
              getD_set_ne c1 i j 1 hji, getD_set_ne c2 i j 0 hji]
            exact ⟨a1, a2, a3, a4⟩
          obtain ⟨e1, e2⟩ := ih (c1.set i 1) (c2.set i 0) s1 (s2 - 1)
            hnd' hrest
          rw [hT1, hT2]
          try dsimp only
          constructor <;> omega
      · push_neg at hs2
        subst hs2
        by_cases hs1 : s1 = 0 ∧ (0 : ℕ) = 0
        · rw [crossLoop, if_neg hin, if_neg (by omega), if_pos hs1]
          rw [hT1, hT2]
          try dsimp only
          constructor <;> omega
        · rw [crossLoop, if_neg hin, if_neg (by omega), if_neg hs1]
          obtain ⟨e1, e2⟩ := ih c1 c2 s1 0 hnd'
            (fun j hj => hval j (List.mem_cons_of_mem i hj))
          rw [hT1, hT2]
          try dsimp only
          constructor <;> omega

/-- In-range default reads are list entries. -/
lemma getD_eq_of_lt (l : List ℕ) (i : ℕ) (hi : i < l.length) :
    l.getD i 0 = l[i] := by
  rw [List.getD_eq_getElem?_getD, List.getElem?_eq_getElem hi]
  rfl

/-- A binary list reads 0 or 1 at every in-range index. -/
lemma getD_binary (p : List ℕ) (hb : ∀ x ∈ p, x = 0 ∨ x = 1) (i : ℕ)
    (hi : i < p.length) : p.getD i 0 = 0 ∨ p.getD i 0 = 1 := by
  rw [getD_eq_of_lt p i hi]
  exact hb _ (List.getElem_mem hi)

/-- The `count 1` of a list equals the number of in-range indices reading 1. -/
lemma count1_eq_countP_range (p : List ℕ) :
    p.count 1 =
      (List.range p.length).countP (fun i => decide (p.getD i 0 = 1)) := by
  induction p with
  | nil => rfl
  | cons a t ih =>
    rw [List.count_cons, ih, List.length_cons, List.range_succ_eq_map,
      List.countP_cons, List.countP_map]
    have hcomp : ((fun i => decide ((a :: t).getD i 0 = 1)) ∘ Nat.succ) =
        (fun i => decide (t.getD i 0 = 1)) := by
      funext i
      simp [List.getD_cons_succ]
    rw [hcomp]
    by_cases ha : a = 1 <;> simp [ha]

/-- Membership in the precomputed `ones` index list. -/
lemma mem_onesIdx (p : List ℕ) (i : ℕ) :
    i ∈ onesIdx p ↔ i < p.length ∧ p.getD i 0 = 1 := by
  unfold onesIdx
  rw [List.mem_filter, List.mem_range]
  simp

/-- Among the differing positions of two binary lists with the same
length and the same number of 1s, as many positions hold a 1 of the
first parent as hold a 1 of the second: the two swap types available to
`Chromo.cross` are equinumerous. -/
lemma diffIdx_countP_eq (p1 p2 : List ℕ)
    (hlen : p1.length = p2.length)
    (hbin1 : ∀ x ∈ p1, x = 0 ∨ x = 1)
    (hbin2 : ∀ x ∈ p2, x = 0 ∨ x = 1)
    (hcnt : p1.count 1 = p2.count 1) :
    (diffIdx p1 p2).countP (fun i => decide (i ∈ onesIdx p1)) =
      (diffIdx p1 p2).countP (fun i => decide (i ∉ onesIdx p1)) := by
  unfold diffIdx
  rw [List.countP_reverse, List.countP_reverse, List.countP_filter,
    List.countP_filter]
  have hA : (List.range p1.length).countP
      (fun i => decide (i ∈ onesIdx p1) &&
        decide (p1.getD i 0 ≠ p2.getD i 0)) =
      (List.range p1.length).countP
        (fun i => decide (p1.getD i 0 = 1) &&
          decide (p1.getD i 0 ≠ p2.getD i 0)) := by
    apply List.countP_congr
    intro i hi
    rw [List.mem_range] at hi
    simp [mem_onesIdx, hi]
  have hNA : (List.range p1.length).countP
      (fun i => decide (i ∉ onesIdx p1) &&
        decide (p1.getD i 0 ≠ p2.getD i 0)) =
      (List.range p1.length).countP
        (fun i => !decide (p1.getD i 0 = 1) &&
          decide (p1.getD i 0 ≠ p2.getD i 0)) := by
    apply List.countP_congr
    intro i hi
    rw [List.mem_range] at hi
    simp [mem_onesIdx, hi]
  have hsplit1 : (List.range p1.length).countP
      (fun i => decide (p1.getD i 0 = 1)) =
      (List.range p1.length).countP
        (fun i => decide (p1.getD i 0 = 1) &&
          decide (p1.getD i 0 ≠ p2.getD i 0)) +
      (List.range p1.length).countP
        (fun i => decide (p1.getD i 0 = 1) &&
          !decide (p1.getD i 0 ≠ p2.getD i 0)) := by
    rw [List.countP_eq_countP_filter_add (List.range p1.length) _
      (fun i => decide (p1.getD i 0 ≠ p2.getD i 0)),
      List.countP_filter, List.countP_filter]
  have hsplit2 : (List.range p1.length).countP
      (fun i => decide (p2.getD i 0 = 1)) =
      (List.range p1.length).countP
        (fun i => decide (p2.getD i 0 = 1) &&
          decide (p1.getD i 0 ≠ p2.getD i 0)) +
      (List.range p1.length).countP
        (fun i => decide (p2.getD i 0 = 1) &&
          !decide (p1.getD i 0 ≠ p2.getD i 0)) := by
    rw [List.countP_eq_countP_filter_add (List.range p1.length) _
      (fun i => decide (p1.getD i 0 ≠ p2.getD i 0)),
      List.countP_filter, List.countP_filter]
  have heqnd : (List.range p1.length).countP
      (fun i => decide (p1.getD i 0 = 1) &&
        !decide (p1.getD i 0 ≠ p2.getD i 0)) =
      (List.range p1.length).countP
        (fun i => decide (p2.getD i 0 = 1) &&
          !decide (p1.getD i 0 ≠ p2.getD i 0)) := by
    apply List.countP_congr
    intro i _
    by_cases hd : p1.getD i 0 = p2.getD i 0
    · rw [hd]
    · have hq : decide (p1.getD i 0 ≠ p2.getD i 0) = true :=
        decide_eq_true hd
      rw [hq]
      simp
  have hBnA : (List.range p1.length).countP
      (fun i => !decide (p1.getD i 0 = 1) &&
        decide (p1.getD i 0 ≠ p2.getD i 0)) =
      (List.range p1.length).countP
        (fun i => decide (p2.getD i 0 = 1) &&
          decide (p1.getD i 0 ≠ p2.getD i 0)) := by
    apply List.countP_congr
    intro i hi
    rw [List.mem_range] at hi
    by_cases hd : p1.getD i 0 = p2.getD i 0
    · have hq : decide (p1.getD i 0 ≠ p2.getD i 0) = false :=
        decide_eq_false (fun hne => hne hd)
      rw [hq]
      simp
    · have hq : decide (p1.getD i 0 ≠ p2.getD i 0) = true :=
        decide_eq_true hd
      by_cases h1 : p1.getD i 0 = 1
      · have h2 : ¬ p2.getD i 0 = 1 := by
          intro h2
          exact hd (h1.trans h2.symm)
        have d1 : decide (p1.getD i 0 = 1) = true := decide_eq_true h1
        have d2 : decide (p2.getD i 0 = 1) = false := decide_eq_false h2
        rw [hq, d1, d2]
        simp
      · have h2 : p2.getD i 0 = 1 := by
          rcases getD_binary p1 hbin1 i hi with h0 | h0
          · rcases getD_binary p2 hbin2 i (hlen ▸ hi) with h0' | h0'
            · exact absurd (h0.trans h0'.symm) hd
            · exact h0'
          · exact absurd h0 h1
        have d1 : decide (p1.getD i 0 = 1) = false := decide_eq_false h1
        have d2 : decide (p2.getD i 0 = 1) = true := decide_eq_true h2
        rw [hq, d1, d2]
        simp
  have hc1 := count1_eq_countP_range p1
  have hc2 := count1_eq_countP_range p2
  rw [← hlen] at hc2
  rw [hA, hNA, hBnA]
  omega

/-- C3.  (Mutation) Whenever `Chromo.mutate` completes on a
non-monometallic chromosome — for any draw stream of in-range indices
and any number of swaps — the number of 1s in the ordering array is
unchanged.  (Crossover) For parents of equal length with binary entries
and equal dopant counts, both children produced by `Chromo.cross` carry
exactly the shared parental dopant count (this is the property the
source's `assert child1.sum() == child2.sum() == self.n_dope`
checks). -/
theorem mutate_cross_preserve_dopants :
    (∀ (arr : List ℕ) (nps : ℕ) (draws : List ℕ) (arr' : List ℕ),
        arr.sum ≠ 0 → arr.sum ≠ arr.length →
        (∀ i ∈ draws, i < arr.length) →
        mutate arr nps draws = some arr' →
        arr'.count 1 = arr.count 1) ∧
      (∀ (p1 p2 : List ℕ),
        p1.length = p2.length →
        (∀ x ∈ p1, x = 0 ∨ x = 1) → (∀ x ∈ p2, x = 0 ∨ x = 1) →
        p1.count 1 = p2.count 1 →
        (crossArrs p1 p2).1.count 1 = p1.count 1 ∧
          (crossArrs p1 p2).2.count 1 = p1.count 1) := by
  constructor
  · intro arr nps draws arr' hs1 hs2 hdr h
    unfold mutate at h
    rw [if_neg (by tauto)] at h
    exact mutateSwaps_count nps draws arr [] hdr arr' h
  · intro p1 p2 hlen hbin1 hbin2 hcnt
    have hnod : (diffIdx p1 p2).Nodup := by
      unfold diffIdx
      exact List.nodup_reverse.mpr
        (List.Nodup.filter _ (List.nodup_range _))
    have hval : ∀ i ∈ diffIdx p1 p2, i < p1.length ∧ i < p2.length ∧
        (i ∈ onesIdx p1 → p1.getD i 0 = 1 ∧ p2.getD i 0 = 0) ∧
        (i ∉ onesIdx p1 → p1.getD i 0 = 0 ∧ p2.getD i 0 = 1) := by
      intro i hi
      unfold diffIdx at hi
      rw [List.mem_reverse, List.mem_filter, List.mem_range] at hi
      obtain ⟨hilt, hdifb⟩ := hi
      have hd : p1.getD i 0 ≠ p2.getD i 0 := of_decide_eq_true hdifb
      refine ⟨hilt, hlen ▸ hilt, ?_, ?_⟩
      · intro hone
        have h1 : p1.getD i 0 = 1 := ((mem_onesIdx p1 i).mp hone).2
        refine ⟨h1, ?_⟩
        rcases getD_binary p2 hbin2 i (hlen ▸ hilt) with h0 | h0
        · exact h0
        · exact absurd (h1.trans h0.symm) hd
      · intro hnone
        have h1 : ¬ p1.getD i 0 = 1 := by
          intro hx
          exact hnone ((mem_onesIdx p1 i).mpr ⟨hilt, hx⟩)
        have h0 : p1.getD i 0 = 0 := by
          rcases getD_binary p1 hbin1 i hilt with h | h
          · exact h
          · exact absurd h h1
        refine ⟨h0, ?_⟩
        rcases getD_binary p2 hbin2 i (hlen ▸ hilt) with h | h
        · exact absurd (h0.trans h.symm) hd
        · exact h
    obtain ⟨e1, e2⟩ := crossLoop_count (onesIdx p1) (diffIdx p1 p2) p1 p2
      2 2 hnod hval
    have ht := diffIdx_countP_eq p1 p2 hlen hbin1 hbin2 hcnt
    unfold crossArrs
    constructor <;> omega

/-- Witness for C3 at concrete inputs: a completed mutation of `[1, 0]`
and the crossover of `[1, 0]` with `[0, 1]`. -/
theorem mutate_cross_preserve_dopants_witness :
    (([1, 0] : List ℕ).sum ≠ 0 ∧
      mutate [1, 0] 1 [0, 1] = some [0, 1] ∧
      ([0, 1] : List ℕ).count 1 = ([1, 0] : List ℕ).count 1) ∧
      ((crossArrs [1, 0] [0, 1]).1.count 1 = ([1, 0] : List ℕ).count 1 ∧
        (crossArrs [1, 0] [0, 1]).2.count 1 = ([1, 0] : List ℕ).count 1) :=
  ⟨⟨by decide, by decide,
      mutate_cross_preserve_dopants.1 [1, 0] 1 [0, 1] [0, 1]
        (by decide) (by decide) (by decide) (by decide)⟩,
    mutate_cross_preserve_dopants.2 [1, 0] [0, 1]
      (by decide) (by decide) (by decide) (by decide)⟩

/-- Association-list lookup with Python dict-literal semantics: a later
entry for the same key overwrites an earlier one (the lookup prefers the
rest of the list). -/
def dlookup {σ β : Type} [DecidableEq σ] : List (σ × β) → σ → Option β
  | [], _ => none
  | (k, v) :: rest, key =>
      match dlookup rest key with
      | some v' => some v'
      | none => if key = k then some v else none

/-- The second entry of a two-entry dict always wins at its key. -/
lemma dlookup_pair_second {σ β : Type} [DecidableEq σ] (k1 k2 : σ)
    (v1 v2 : β) : dlookup [(k1, v1), (k2, v2)] k2 = some v2 := by
  simp [dlookup]

/-- The first entry of a two-entry dict is found when the keys differ. -/
lemma dlookup_pair_first {σ β : Type} [DecidableEq σ] (k1 k2 : σ)
    (v1 v2 : β) (h : k1 ≠ k2) :
    dlookup [(k1, v1), (k2, v2)] k1 = some v1 := by
  simp [dlookup, if_neg h, h]

/-- Embeds `db_inter.gen_coeffs_dict_from_raw`.  Gammas:
`gamma_m1 = 2*(hetero_bde - homo_bde_m2)/(homo_bde_m1 - homo_bde_m2)`,
`gamma_m2 = 2 - gamma_m1`; `none` models Python's `ZeroDivisionError`
when the two homoatomic bond energies coincide.  The dict literals
`bulkce` and `gammas` are embedded as association lists with later-wins
lookup, which reproduces the collapse of duplicated keys when
`metal1 == metal2`.  The `totgamma` and `coeffs` dict-of-dicts are
built by loops over `metals = [metal1, metal2]` whose iterations write
a value depending only on the key pair, so they are embedded as the
induced lookup functions: keys outside `metals` are absent (`none`),
and entry `(m, m2)` holds
`[None if cn == 0 else gammas[m][m2]*bulkce[m]/sqrt(cnmax)/sqrt(cn) for cn in range(cnmax+1)]`. -/
noncomputable def gen_coeffs_dict_from_raw {σ : Type} [DecidableEq σ]
    (metal1 metal2 : σ)
    (bulkce_m1 bulkce_m2 homo_bde_m1 homo_bde_m2 hetero_bde : ℚ)
    (cnmax : ℕ) : Option (σ → σ → Option (List (Option ℝ))) :=
  if homo_bde_m1 - homo_bde_m2 = 0 then none
  else
    let gamma_m1 : ℚ :=
      2 * (hetero_bde - homo_bde_m2) / (homo_bde_m1 - homo_bde_m2)
    let gamma_m2 : ℚ := 2 - gamma_m1
    let metals : List σ := [metal1, metal2]
    let bulkce : List (σ × ℚ) := [(metal1, bulkce_m1), (metal2, bulkce_m2)]
    let gammas : List (σ × List (σ × ℚ)) :=
      [(metal1, [(metal1, 1), (metal2, gamma_m1)]),
       (metal2, [(metal2, 1), (metal1, gamma_m2)])]
    let totgamma : σ → σ → ℝ := fun m m2 =>
      (((dlookup ((dlookup gammas m).getD []) m2).getD 0 : ℚ) : ℝ) *
        (((dlookup bulkce m).getD 0 : ℚ) : ℝ) / Real.sqrt cnmax
    some (fun m m2 =>
      if m ∈ metals ∧ m2 ∈ metals then
        some ((List.range (cnmax + 1)).map (fun (cn : ℕ) =>
          if cn = 0 then none
          else some (totgamma m m2 / Real.sqrt (cn : ℝ))))
      else none)

/-- Reading a mapped range at an in-range index. -/
lemma getD_range_map {β : Type} (f : ℕ → β) (n i : ℕ) (d : β)
    (hi : i < n) : ((List.range n).map f).getD i d = f i := by
  rw [List.getD_eq_getElem?_getD, List.getElem?_map, List.getElem?_range hi]
  rfl

/-- The `gamma_m1` value computed by `gen_coeffs_dict_from_raw`. -/
def gammaM1 (h1 h2 het : ℚ) : ℚ := 2 * (het - h2) / (h1 - h2)

/-- The `gamma_m2 = 2 - gamma_m1` value computed by `gen_coeffs_dict_from_raw`. -/
def gammaM2 (h1 h2 het : ℚ) : ℚ := 2 - gammaM1 h1 h2 het

/-- What the corrected claim asserts of one direction `(a, b)` of the
returned coefficient table: a `cnmax + 1`-entry array, `None` at
coordination number 0, and `gamma * bulk_ce / sqrt(cnmax * cn)` at
`cn = 1..cnmax`. -/
def coeffsSpec {σ : Type} (d : σ → σ → Option (List (Option ℝ)))
    (a b : σ) (γ bce : ℚ) (cnmax : ℕ) : Prop :=
  ∃ L, d a b = some L ∧ L.length = cnmax + 1 ∧ L.getD 0 (some 0) = none ∧
    ∀ cn, 1 ≤ cn → cn ≤ cnmax →
      L.getD cn none =
        some (((γ * bce : ℚ) : ℝ) / Real.sqrt ((cnmax : ℝ) * (cn : ℝ)))

/-- C4 counterexample.  With `metal1 = "Ag"`, `metal2 = "Cu"`,
`bulkce_m1 = -6`, bond energies giving `gamma_Ag,Ag = 1`, and the
default `cnmax = 12`, the code's `(Ag, Ag)` entry at `cn = 3` is
`1 * (-6) / sqrt(12) / sqrt(3) = -1`, while the claim's formula
`gamma * bulk_ce / sqrt(cn)` predicts `-6 / sqrt(3)`; the two differ:
the claim omits the `1 / sqrt(cnmax)` factor. -/
theorem gen_coeffs_formula_counterexample :
    (gen_coeffs_dict_from_raw "Ag" "Cu" (-6) 1 1 0 (1/2) 12).map
        (fun d => (d "Ag" "Ag").map (fun L => L.getD 3 none)) =
      some (some (some (-1))) ∧
      ((-1 : ℝ) ≠ ((1 : ℝ) * (-6)) / Real.sqrt 3) := by
  constructor
  · unfold gen_coeffs_dict_from_raw
    rw [if_neg (by norm_num)]
    simp only [Option.map_some']
    rw [if_pos (by simp)]
    simp only [Option.map_some']
    rw [getD_range_map _ _ 3 _ (by omega)]
    rw [if_neg (by omega)]
    have hAg : ("Ag" : String) ≠ "Cu" := by decide
    rw [dlookup_pair_first _ _ _ _ hAg, dlookup_pair_first _ _ _ _ hAg]
    simp only [Option.getD_some]
    rw [dlookup_pair_first _ _ _ _ hAg]
    simp only [Option.getD_some]
    have h363 : Real.sqrt 12 * Real.sqrt 3 = 6 := by
      rw [← Real.sqrt_mul (by norm_num : (0:ℝ) ≤ 12) 3]
      rw [show (12 * 3 : ℝ) = 6 ^ 2 by norm_num]
      exact Real.sqrt_sq (by norm_num)
    rw [div_div]
    push_cast
    rw [h363]
    norm_num
  · intro heq
    have hs3 : (0 : ℝ) < Real.sqrt 3 := Real.sqrt_pos.mpr (by norm_num)
    have hne : Real.sqrt 3 ≠ 6 := by
      intro he
      have hsq := Real.sq_sqrt (show (0:ℝ) ≤ 3 by norm_num)
      rw [he] at hsq
      norm_num at hsq
    apply hne
    have h1 : (-1 : ℝ) * Real.sqrt 3 = 1 * (-6) := by
      rw [heq]
      field_simp
    linarith

/-- C4 amended.  For distinct metals and distinct homoatomic bond
energies, `gen_coeffs_dict_from_raw` returns, for every ordered species
pair, a length-`cnmax + 1` array with no defined contribution at
`cn = 0` and entry `gamma * bulk_ce[m1] / sqrt(cnmax * cn)` at
`cn = 1..cnmax` (the claim's formula with the missing
`1 / sqrt(cnmax)` factor restored; `cnmax` defaults to 12), where
`gamma` is 1 on the diagonal, `gamma_m1` for `(m1, m2)` and
`gamma_m2 = 2 - gamma_m1` for `(m2, m1)`. -/
theorem gen_coeffs_amended {σ : Type} [DecidableEq σ] (m1 m2 : σ)
    (b1 b2 h1 h2 het : ℚ) (cnmax : ℕ) (h12 : m1 ≠ m2)
    (hden : h1 - h2 ≠ 0) :
    ∃ d, gen_coeffs_dict_from_raw m1 m2 b1 b2 h1 h2 het cnmax = some d ∧
      coeffsSpec d m1 m1 1 b1 cnmax ∧
      coeffsSpec d m1 m2 (gammaM1 h1 h2 het) b1 cnmax ∧
      coeffsSpec d m2 m1 (gammaM2 h1 h2 het) b2 cnmax ∧
      coeffsSpec d m2 m2 1 b2 cnmax := by
  have h21 : m2 ≠ m1 := fun he => h12 he.symm
  unfold gen_coeffs_dict_from_raw
  simp only [if_neg hden]
  refine ⟨_, rfl, ?_, ?_, ?_, ?_⟩ <;> unfold coeffsSpec <;> dsimp only
  · refine ⟨_, if_pos (by simp), ?_, ?_, ?_⟩
    · simp
    · rw [getD_range_map _ _ 0 _ (by omega)]
      simp
    · intro cn hcn1 hcn2
      rw [getD_range_map _ _ cn _ (by omega), if_neg (by omega)]
      rw [dlookup_pair_first _ _ _ _ h12, dlookup_pair_first _ _ _ _ h12]
      simp only [Option.getD_some]
      rw [dlookup_pair_first _ _ _ _ h12]
      simp only [Option.getD_some]
      rw [div_div, ← Real.sqrt_mul (by positivity)]
      congr 1
      push_cast
      ring
  · refine ⟨_, if_pos (by simp), ?_, ?_, ?_⟩
    · simp
    · rw [getD_range_map _ _ 0 _ (by omega)]
      simp
    · intro cn hcn1 hcn2
      rw [getD_range_map _ _ cn _ (by omega), if_neg (by omega)]
      rw [dlookup_pair_first _ _ _ _ h12]
      simp only [Option.getD_some]
      rw [dlookup_pair_second, dlookup_pair_first _ _ _ _ h12]
      simp only [Option.getD_some]
      rw [div_div, ← Real.sqrt_mul (by positivity)]
      unfold gammaM1
      congr 1
      push_cast
      ring
  · refine ⟨_, if_pos (by simp), ?_, ?_, ?_⟩
    · simp
    · rw [getD_range_map _ _ 0 _ (by omega)]
      simp
    · intro cn hcn1 hcn2
      rw [getD_range_map _ _ cn _ (by omega), if_neg (by omega)]
      rw [dlookup_pair_second, dlookup_pair_second]
      simp only [Option.getD_some]
      rw [dlookup_pair_second]
      simp only [Option.getD_some]
      rw [div_div, ← Real.sqrt_mul (by positivity)]
      unfold gammaM2 gammaM1
      congr 1
      push_cast
      ring
  · refine ⟨_, if_pos (by simp), ?_, ?_, ?_⟩
    · simp
    · rw [getD_range_map _ _ 0 _ (by omega)]
      simp
    · intro cn hcn1 hcn2
      rw [getD_range_map _ _ cn _ (by omega), if_neg (by omega)]
      rw [dlookup_pair_second]
      simp only [Option.getD_some]
      rw [dlookup_pair_first _ _ _ _ h21, dlookup_pair_second]
      simp only [Option.getD_some]
      rw [div_div, ← Real.sqrt_mul (by positivity)]
      congr 1
      push_cast
      ring

/-- Witness for C4 amended at concrete inputs. -/
theorem gen_coeffs_amended_witness :
    ("Ag" : String) ≠ "Cu" ∧ ((1 : ℚ) - 0 ≠ 0) ∧
      (∃ d, gen_coeffs_dict_from_raw "Ag" "Cu" (-6) 1 1 0 (1/2) 12 =
          some d ∧
        coeffsSpec d "Ag" "Ag" 1 (-6) 12 ∧
        coeffsSpec d "Ag" "Cu" (gammaM1 1 0 (1/2)) (-6) 12 ∧
        coeffsSpec d "Cu" "Ag" (gammaM2 1 0 (1/2)) 1 12 ∧
        coeffsSpec d "Cu" "Cu" 1 1 12) :=
  ⟨by decide, by norm_num,
    gen_coeffs_amended "Ag" "Cu" (-6) 1 1 0 (1/2) 12 (by decide)
      (by norm_num)⟩

/-- C5 counterexample.  `gen_coeffs_dict_from_raw` has no
`element1 == element2` special case: with `metal1 = metal2 = "Cu"`,
`bulkce_m2 = -12`, `homo_bde_m1 = 2`, `homo_bde_m2 = 1`,
`hetero_bde = 1`, the duplicated dictionary keys collapse and the
single surviving `(Cu, Cu)` direction carries `gamma_m2 = 2`, so the
`cn = 12` entry is `2 * (-12) / 12 = -2` — not the `-1` that
`gamma = 1.0` would give.  The gamma in the table therefore depends on
the bond-energy inputs, contradicting the claim. -/
theorem gen_coeffs_same_element_counterexample :
    (gen_coeffs_dict_from_raw "Cu" "Cu" 5 (-12) 2 1 1 12).map
        (fun d => (d "Cu" "Cu").map (fun L => L.getD 12 none)) =
      some (some (some (-2))) ∧
      ((-2 : ℝ) ≠ (1 : ℝ) * (-12) / (Real.sqrt 12 * Real.sqrt 12)) := by
  have h12 : Real.sqrt 12 * Real.sqrt 12 = 12 :=
    Real.mul_self_sqrt (by norm_num)
  constructor
  · unfold gen_coeffs_dict_from_raw
    rw [if_neg (by norm_num)]
    simp only [Option.map_some']
    rw [if_pos (by simp)]
    simp only [Option.map_some']
    rw [getD_range_map _ _ 12 _ (by omega), if_neg (by omega)]
    rw [dlookup_pair_second]
    simp only [Option.getD_some]
    rw [dlookup_pair_second, dlookup_pair_second]
    simp only [Option.getD_some]
    rw [div_div]
    push_cast
    rw [h12]
    norm_num
  · rw [h12]
    norm_num

/-- C5 amended.  For `element1 = element2 = m` the duplicated dict keys
collapse: the returned table's single `(m, m)` direction carries
`gamma_m2 = 2 - 2*(hetero - homo2)/(homo1 - homo2)` paired with
`bulkce_m2` — a value that equals 1 exactly when the heteroatomic bond
energy is the mean of the two homoatomic inputs, and depends on the
bond-energy inputs in general; when the two homoatomic inputs coincide
the computation raises `ZeroDivisionError` instead of returning. -/
theorem gen_coeffs_same_element_amended {σ : Type} [DecidableEq σ]
    (m : σ) (b1 b2 h1 h2 het : ℚ) (cnmax : ℕ) (hden : h1 - h2 ≠ 0) :
    (∃ d, gen_coeffs_dict_from_raw m m b1 b2 h1 h2 het cnmax = some d ∧
        coeffsSpec d m m (gammaM2 h1 h2 het) b2 cnmax) ∧
      (gammaM2 h1 h2 het = 1 ↔ 2 * het = h1 + h2) ∧
      (∀ h b1' b2' het' : ℚ,
        gen_coeffs_dict_from_raw m m b1' b2' h h het' cnmax = none) := by
  refine ⟨?_, ?_, ?_⟩
  · unfold gen_coeffs_dict_from_raw
    simp only [if_neg hden]
    refine ⟨_, rfl, ?_⟩
    unfold coeffsSpec
    dsimp only
    refine ⟨_, if_pos (by simp), ?_, ?_, ?_⟩
    · simp
    · rw [getD_range_map _ _ 0 _ (by omega)]
      simp
    · intro cn hcn1 hcn2
      rw [getD_range_map _ _ cn _ (by omega), if_neg (by omega)]
      rw [dlookup_pair_second]
      simp only [Option.getD_some]
      rw [dlookup_pair_second, dlookup_pair_second]
      simp only [Option.getD_some]
      rw [div_div, ← Real.sqrt_mul (by positivity)]
      unfold gammaM2 gammaM1
      congr 1
      push_cast
      ring
  · unfold gammaM2 gammaM1
    constructor
    · intro h
      have h' : 2 * (het - h2) / (h1 - h2) = 1 := by linarith
      rw [div_eq_one_iff_eq hden] at h'
      linarith
    · intro h
      have h' : 2 * (het - h2) = h1 - h2 := by linarith
      rw [h', div_self hden]
      norm_num
  · intro h b1' b2' het'
    unfold gen_coeffs_dict_from_raw
    rw [if_pos (sub_self h)]

/-- Witness for C5 amended at concrete inputs. -/
theorem gen_coeffs_same_element_amended_witness :
    ((2 : ℚ) - 1 ≠ 0) ∧
      ((∃ d, gen_coeffs_dict_from_raw "Cu" "Cu" 5 (-12) 2 1 1 12 =
            some d ∧
          coeffsSpec d "Cu" "Cu" (gammaM2 2 1 1) (-12) 12) ∧
        (gammaM2 2 1 1 = 1 ↔ (2 : ℚ) * 1 = 2 + 1) ∧
        (∀ h b1' b2' het' : ℚ,
          gen_coeffs_dict_from_raw "Cu" "Cu" b1' b2' h h het' 12 = none)) :=
  ⟨by norm_num,
    gen_coeffs_same_element_amended "Cu" 5 (-12) 2 1 1 12 (by norm_num)⟩

/-- The mutable state of `BCModel.metropolis`'s loop: the current
ordering, the best-so-far ordering and energy, and the energy history
array. -/
structure MetroState (α : Type) where
  ordering : List ℕ
  best_ordering : List ℕ
  best_energy : α
  energy_history : List α

/-- One iteration of `for step in range(1, num_steps)` in
`BCModel.metropolis`.  `E` is `self.calc_ce`; `prop` is an oracle for
the random swap proposal (a `(one index, zero index)` pair, standing
for `np.random.choice` over the ones/zeros, or the adjacency-restricted
search); `unif` is the stream of `np.random.uniform()` draws.
`prev_energy` is the variable the source assigns *once, before the
loop* (`prev_energy = best_energy`) and never reassigns: the ratio test
divides by it in every iteration.  An accepted step commits the swapped
ordering and records `energy`; a rejected step restores the pre-swap
ordering and records `prev_energy`. -/
def metroStep {α : Type} [LinearOrderedField α] (E : List ℕ → α)
    (prop : ℕ → List ℕ → ℕ × ℕ) (unif : ℕ → α) (prev_energy : α)
    (step : ℕ) (st : MetroState α) : MetroState α :=
  let pr := prop step st.ordering
  let prev_ordering := st.ordering
  let o' := (st.ordering.set pr.1 0).set pr.2 1
  let energy := E o'
  if energy / prev_energy > unif step then
    if energy < st.best_energy then
      ⟨o', o', energy, st.energy_history.set step energy⟩
    else
      ⟨o', st.best_ordering, st.best_energy,
        st.energy_history.set step energy⟩
  else
    ⟨prev_ordering, st.best_ordering, st.best_energy,
      st.energy_history.set step prev_energy⟩

/-- The loop of `BCModel.metropolis`, running `fuel` iterations
starting at index `step`. -/
def metroLoop {α : Type} [LinearOrderedField α] (E : List ℕ → α)
    (prop : ℕ → List ℕ → ℕ × ℕ) (unif : ℕ → α) (prev_energy : α) :
    ℕ → ℕ → MetroState α → MetroState α
  | _, 0, st => st
  | step, fuel + 1, st =>
      metroLoop E prop unif prev_energy (step + 1) fuel
        (metroStep E prop unif prev_energy step st)

/-- Embeds `BCModel.metropolis`: initialisation (`best_energy =
self.calc_ce(ordering)`, `prev_energy = best_energy`,
`energy_history = np.zeros(num_steps)` with slot 0 set to
`best_energy`) followed by the loop over steps `1 .. num_steps - 1`. -/
def metropolis {α : Type} [LinearOrderedField α] (E : List ℕ → α)
    (prop : ℕ → List ℕ → ℕ × ℕ) (unif : ℕ → α) (o : List ℕ)
    (num_steps : ℕ) : MetroState α :=
  let best_energy := E o
  metroLoop E prop unif best_energy 1 (num_steps - 1)
    ⟨o, o, best_energy, (List.replicate num_steps 0).set 0 best_energy⟩

/-- The walk the claim describes, written from its words: in every
step the tentative swap is accepted iff `new_energy / previous_energy`
exceeds the fresh uniform draw, *where `previous_energy` is the energy
of the current ordering immediately before the tentative swap*;
otherwise the previous ordering is restored unchanged. -/
def claimWalk {α : Type} [LinearOrderedField α] (E : List ℕ → α)
    (prop : ℕ → List ℕ → ℕ × ℕ) (unif : ℕ → α) :
    ℕ → ℕ → List ℕ → List ℕ
  | _, 0, o => o
  | step, fuel + 1, o =>
      let pr := prop step o
      let o' := (o.set pr.1 0).set pr.2 1
      claimWalk E prop unif (step + 1) fuel
        (if E o' / E o > unif step then o' else o)

/-- The amended rule, written from the amended claim's words: the
denominator of the acceptance ratio is the energy of the walk's
*initial* ordering (`e0`), fixed for the whole walk. -/
def amendedWalk {α : Type} [LinearOrderedField α] (E : List ℕ → α)
    (prop : ℕ → List ℕ → ℕ × ℕ) (unif : ℕ → α) (e0 : α) :
    ℕ → ℕ → List ℕ → List ℕ
  | _, 0, o => o
  | step, fuel + 1, o =>
      let pr := prop step o
      let o' := (o.set pr.1 0).set pr.2 1
      amendedWalk E prop unif e0 (step + 1) fuel
        (if E o' / e0 > unif step then o' else o)

/-- Concrete 3-atom bond topology used to separate the two acceptance
rules: bonds `0 → 1` and `1 → 2`, so both bond sources have
coordination number 1. -/
def bondsEx : List (ℕ × ℕ) := [(0, 1), (1, 2)]

/-- Rational part of the concrete precomp matrix. -/
noncomputable def qex (i j : ℕ) : ℝ :=
  if i = 1 ∧ j = 0 then -9/2
  else if i = 0 ∧ j = 0 then 3/2
  else if i = 0 ∧ j = 1 then -15/2
  else 0

/-- Concrete precomp matrix: the `sqrt 12` factor cancels against the
`cn_precomps` denominator, making the three reachable energies exactly
`-1`, `-4` and `-2`. -/
noncomputable def Pex (i j : ℕ) : ℝ := qex i j * Real.sqrt 12

/-- Forced swap proposals: step 1 proposes the `(0, 1)` swap, step 2
the `(1, 2)` swap (each a valid one/zero pair in the state reached). -/
def propEx (k : ℕ) (_ : List ℕ) : ℕ × ℕ :=
  if k = 1 then (0, 1) else (1, 2)

/-- Uniform draws: `1/2` at step 1, `3/4` at step 2 (both in `[0,1)`). -/
noncomputable def unifEx (k : ℕ) : ℝ := if k = 1 then 1/2 else 3/4

/-- Energy of `[1, 0, 0]` in the concrete system. -/
lemma calcCE_ex_A : calcCE Pex bondsEx 3 [1, 0, 0] = -1 := by
  have h12 : Real.sqrt 12 ≠ 0 := by positivity
  have h0 : cnOf bondsEx 0 = 1 := by decide
  have h1 : cnOf bondsEx 1 = 1 := by decide
  unfold calcCE
  rw [show bondsEx = [(0, 1), (1, 2)] from rfl] at h0 h1 ⊢
  simp only [List.map_cons, List.map_nil, List.sum_cons, List.sum_nil,
    List.getD_cons_zero, List.getD_cons_succ, h0, h1]
  norm_num [Pex, qex]
  field_simp
  ring

/-- Energy of `[0, 1, 0]` in the concrete system. -/
lemma calcCE_ex_B : calcCE Pex bondsEx 3 [0, 1, 0] = -4 := by
  have h12 : Real.sqrt 12 ≠ 0 := by positivity
  have h0 : cnOf bondsEx 0 = 1 := by decide
  have h1 : cnOf bondsEx 1 = 1 := by decide
  unfold calcCE
  rw [show bondsEx = [(0, 1), (1, 2)] from rfl] at h0 h1 ⊢
  simp only [List.map_cons, List.map_nil, List.sum_cons, List.sum_nil,
    List.getD_cons_zero, List.getD_cons_succ, h0, h1]
  norm_num [Pex, qex]
  field_simp
  ring

/-- Energy of `[0, 0, 1]` in the concrete system. -/
lemma calcCE_ex_C : calcCE Pex bondsEx 3 [0, 0, 1] = -2 := by
  have h12 : Real.sqrt 12 ≠ 0 := by positivity
  have h0 : cnOf bondsEx 0 = 1 := by decide
  have h1 : cnOf bondsEx 1 = 1 := by decide
  unfold calcCE
  rw [show bondsEx = [(0, 1), (1, 2)] from rfl] at h0 h1 ⊢
  simp only [List.map_cons, List.map_nil, List.sum_cons, List.sum_nil,
    List.getD_cons_zero, List.getD_cons_succ, h0, h1]
  norm_num [Pex, qex]
  field_simp
  ring

/-- C6 counterexample.  On the concrete 3-atom system, with energies
`E([1,0,0]) = -1`, `E([0,1,0]) = -4`, `E([0,0,1]) = -2` and uniform
draws `1/2, 3/4`: the code's walk accepts both swaps (its second ratio
is `-2 / -1 = 2 > 3/4`, because `prev_energy` is never updated) and
ends at `[0, 0, 1]`, while the claim's rule rejects the second swap
(ratio `-2 / -4 = 1/2 ≤ 3/4` against the energy immediately before the
swap) and ends at `[0, 1, 0]`. -/
theorem metropolis_acceptance_counterexample :
    (metropolis (calcCE Pex bondsEx 3) propEx unifEx [1, 0, 0] 3).ordering
        = [0, 0, 1] ∧
      claimWalk (calcCE Pex bondsEx 3) propEx unifEx 1 2 [1, 0, 0]
        = [0, 1, 0] ∧
      ([0, 0, 1] : List ℕ) ≠ [0, 1, 0] := by
  refine ⟨?_, ?_, by decide⟩
  · unfold metropolis
    norm_num [metroLoop, metroStep, propEx, unifEx,
      calcCE_ex_A, calcCE_ex_B, calcCE_ex_C]
  · norm_num [claimWalk, propEx, unifEx,
      calcCE_ex_A, calcCE_ex_B, calcCE_ex_C]

/-- The ordering component of the code's loop follows the
initial-energy acceptance rule. -/
lemma metroLoop_ordering_amended {α : Type} [LinearOrderedField α]
    (E : List ℕ → α) (prop : ℕ → List ℕ → ℕ × ℕ) (unif : ℕ → α)
    (prev_energy : α) (fuel : ℕ) :
    ∀ (step : ℕ) (st : MetroState α),
      (metroLoop E prop unif prev_energy step fuel st).ordering =
        amendedWalk E prop unif prev_energy step fuel st.ordering := by
  induction fuel with
  | zero =>
    intro step st
    rfl
  | succ n ih =>
    intro step st
    rw [metroLoop, amendedWalk, ih]
    congr 1
    unfold metroStep
    by_cases hacc : E ((st.ordering.set (prop step st.ordering).1 0).set
        (prop step st.ordering).2 1) / prev_energy > unif step
    · rw [if_pos hacc, if_pos hacc]
      by_cases hbest : E ((st.ordering.set (prop step st.ordering).1 0).set
          (prop step st.ordering).2 1) < st.best_energy
      · rw [if_pos hbest]
      · rw [if_neg hbest]
    · rw [if_neg hacc, if_neg hacc]

/-- C6 amended.  In every step of `BCModel.metropolis` the tentative
swap is accepted iff `new_energy / e0` exceeds the fresh uniform draw,
where `e0` is the energy of the walk's *initial* ordering
(`prev_energy` is assigned once before the loop and never updated);
otherwise the previous ordering is restored unchanged.  The theorem
exhibits the code's ordering trajectory as exactly the walk following
that rule. -/
theorem metropolis_amended {α : Type} [LinearOrderedField α]
    (E : List ℕ → α) (prop : ℕ → List ℕ → ℕ × ℕ) (unif : ℕ → α)
    (o : List ℕ) (num_steps : ℕ) :
    (metropolis E prop unif o num_steps).ordering =
      amendedWalk E prop unif (E o) 1 (num_steps - 1) o := by
  unfold metropolis
  rw [metroLoop_ordering_amended]

/-- Embeds `base[pick] = 1` for a list of indices: numpy fancy-index
assignment, one `set` per index. -/
def setIdxs (l : List ℕ) (idxs : List ℕ) (v : ℕ) : List ℕ :=
  idxs.foldl (fun acc i => acc.set i v) l

/-- Embeds `ga.ncr`: binomial coefficient via the source's product formula
(`r = min(r, n - r)`, product of `n, n-1, ..., n-r+1` over `r!`). -/
def ncr (n r : ℕ) : ℕ :=
  ((List.range (min r (n - r))).foldl (fun a k => a * (n - k)) 1) /
    ((List.range (min r (n - r))).foldl (fun a k => a * (k + 1)) 1)

/-- Insertion into an ascending-sorted list. -/
def insertSorted (x : ℕ) : List ℕ → List ℕ
  | [] => [x]
  | y :: ys => if x ≤ y then x :: y :: ys else y :: insertSorted x ys

/-- Ascending sort, embedding Python `sorted(...)` by insertion sort. -/
def sortAsc (l : List ℕ) : List ℕ := l.foldr insertSorted []

/-- Embeds `np.where(cn_list == cn)[0]`: the atom indices of one CN tier. -/
def tierSpots (cns : List ℕ) (cn : ℕ) : List ℕ :=
  (List.range cns.length).filter (fun i => decide (cns.getD i 0 = cn))

/-- The `for cn in cnset` loop of `ga.fill_cn`, recursing over the
remaining tiers with the partially filled structure and the remaining
dopant budget.  Results: `.inl` is the in-loop `return sample` of the
`return_n` branch; `.inr (struct_min, ce)` falls through to the common
epilogue (`ce = None` unless the energy-search branch set it);
`.error` is the `ValueError` for an oversized sample request.  `samp t
spots k` is the oracle for the `t`-th `random.sample(list(spots), k)`
call of a loop; `E` is `atomg.getTotalCE`. -/
def fillCnGo {α : Type} [LinearOrder α] [Zero α] (E : List ℕ → α)
    (cns : List ℕ) (max_search return_n : ℕ)
    (samp : ℕ → List ℕ → ℕ → List ℕ) :
    List ℕ → List ℕ → ℕ →
    Except String (Sum (List (List ℕ)) (Option (List ℕ) × Option α))
  | [], struct_min, _ => .ok (.inr (some struct_min, none))
  | cn :: rest, struct_min, n_dope =>
      let spots := tierSpots cns cn
      if spots.length = n_dope then
        .ok (.inr (some (setIdxs struct_min spots 1), none))
      else if spots.length > n_dope then
        if return_n ≠ 0 then
          if return_n > ncr spots.length n_dope then
            .error "not enough options to produce desired sample size"
          else
            .ok (.inl ((List.range return_n).map (fun t =>
              setIdxs struct_min (samp t spots n_dope) 1)))
        else
          let searchopts : List (List ℕ) :=
            if ncr spots.length n_dope ≤ max_search then
              List.sublistsLen n_dope spots
            else (List.range max_search).map (fun t => samp t spots n_dope)
          let res := searchopts.foldl
            (fun (acc : α × Option (List ℕ)) pick =>
              let checkce := E (setIdxs struct_min pick 1)
              if checkce < acc.1 then (checkce, some (setIdxs struct_min pick 1))
              else acc)
            (0, none)
          .ok (.inr (res.2, some res.1))
      else
        fillCnGo E cns max_search return_n samp rest
          (setIdxs struct_min spots 1) (n_dope - spots.length)

/-- Embeds `ga.fill_cn`.  The monometallic fast path fills the unique ordering
directly; otherwise the tier loop runs over
`sorted(set(cn_list))` (reversed unless `low_first`).  The epilogue is
the source's `if not ce: ce = atomg.getTotalCE(struct_min)` (Python
falsiness: `None` or `0.0`; `getTotalCE(None)` would raise a
`TypeError`, possible only in the degenerate all-nonnegative-energy
search) followed by `return [struct_min]`-style dispatch on
`return_n` (0 models Python's falsy `None`/`0`). -/
def fillCn {α : Type} [LinearOrder α] [Zero α] [DecidableEq α]
    (E : List ℕ → α) (cns : List ℕ) (n_dope max_search : ℕ)
    (low_first : Bool) (return_n : ℕ)
    (samp : ℕ → List ℕ → ℕ → List ℕ) :
    Except String (Sum (List (List ℕ)) (List ℕ × α)) :=
  let res : Except String (Sum (List (List ℕ)) (Option (List ℕ) × Option α)) :=
    if n_dope = 0 ∨ n_dope = cns.length then
      let struct_min : List ℕ :=
        if n_dope = 0 then List.replicate cns.length 0
        else List.replicate cns.length 1
      .ok (.inr (some struct_min, some (E struct_min)))
    else
      let cnset0 := sortAsc cns.dedup
      let cnset := if low_first then cnset0 else cnset0.reverse
      fillCnGo E cns max_search return_n samp cnset
        (List.replicate cns.length 0) n_dope
  match res with
  | .error e => .error e
  | .ok (.inl sample) => .ok (.inl sample)
  | .ok (.inr (ostruct, oce)) =>
      let needsCE : Bool :=
        match oce with
        | none => true
        | some c => decide (c = 0)
      match ostruct with
      | none => .error "TypeError: getTotalCE(None)"
      | some s =>
          let ce := if needsCE then E s else oce.getD 0
          if return_n ≠ 0 then .ok (.inl [s])
          else .ok (.inr (s, ce))

/-- Which branch terminates the greedy pass of `fill_cn`: the
monometallic fast path, the exact-tier-match break, the
strictly-larger-tier sub-selection (carrying the tier size and the
remaining budget), or falling through every tier. -/
inductive FillPath : Type where
  | mono : FillPath
  | exact : FillPath
  | bigger (spotsLen nd' : ℕ) : FillPath
  | fell : FillPath
  deriving Repr, DecidableEq

/-- Branch classification of the tier loop. -/
def tierPathGo (cns : List ℕ) : List ℕ → ℕ → FillPath
  | [], _ => .fell
  | cn :: rest, nd =>
      let spots := tierSpots cns cn
      if spots.length = nd then .exact
      else if spots.length > nd then .bigger spots.length nd
      else tierPathGo cns rest (nd - spots.length)

/-- Branch classification of a `fill_cn` call. -/
def tierPath (cns : List ℕ) (n_dope : ℕ) (low_first : Bool) : FillPath :=
  if n_dope = 0 ∨ n_dope = cns.length then .mono
  else
    tierPathGo cns
      (if low_first then sortAsc cns.dedup else (sortAsc cns.dedup).reverse)
      n_dope

/-- The tier loop never classifies as the monometallic fast path. -/
lemma tierPathGo_ne_mono (cns : List ℕ) (cnset : List ℕ) :
    ∀ nd, tierPathGo cns cnset nd ≠ .mono := by
  induction cnset with
  | nil =>
    intro nd h
    rw [tierPathGo] at h
    exact absurd h (by simp)
  | cons cn rest ih =>
    intro nd h
    rw [tierPathGo] at h
    by_cases h1 : (tierSpots cns cn).length = nd
    · rw [if_pos h1] at h
      exact absurd h (by simp)
    · rw [if_neg h1] at h
      by_cases h2 : (tierSpots cns cn).length > nd
      · rw [if_pos h2] at h
        exact absurd h (by simp)
      · rw [if_neg h2] at h
        exact ih _ h

/-- An exact-tier-match termination yields one fixed structure,
whatever `return_n` is. -/
lemma fillCnGo_exact {α : Type} [LinearOrder α] [Zero α] (E : List ℕ → α)
    (cns : List ℕ) (max_search : ℕ) (samp : ℕ → List ℕ → ℕ → List ℕ)
    (cnset : List ℕ) :
    ∀ (struct : List ℕ) (nd : ℕ), tierPathGo cns cnset nd = .exact →
      ∃ s, ∀ r, fillCnGo E cns max_search r samp cnset struct nd =
        .ok (.inr (some s, none)) := by
  induction cnset with
  | nil =>
    intro struct nd h
    rw [tierPathGo] at h
    exact absurd h (by simp)
  | cons cn rest ih =>
    intro struct nd h
    rw [tierPathGo] at h
    by_cases h1 : (tierSpots cns cn).length = nd
    · refine ⟨setIdxs struct (tierSpots cns cn) 1, fun r => ?_⟩
      rw [fillCnGo, if_pos h1]
    · rw [if_neg h1] at h
      by_cases h2 : (tierSpots cns cn).length > nd
      · rw [if_pos h2] at h
        exact absurd h (by simp)
      · rw [if_neg h2] at h
        obtain ⟨s, hs⟩ := ih (setIdxs struct (tierSpots cns cn) 1)
          (nd - (tierSpots cns cn).length) h
        refine ⟨s, fun r => ?_⟩
        rw [fillCnGo, if_neg h1, if_neg h2]
        exact hs r

/-- A strictly-larger-tier termination with an honourable request
returns the sampled list, of length exactly `return_n`. -/
lemma fillCnGo_bigger {α : Type} [LinearOrder α] [Zero α] (E : List ℕ → α)
    (cns : List ℕ) (max_search : ℕ) (samp : ℕ → List ℕ → ℕ → List ℕ)
    (cnset : List ℕ) :
    ∀ (struct : List ℕ) (nd sl nd' r : ℕ),
      tierPathGo cns cnset nd = .bigger sl nd' → 0 < r → r ≤ ncr sl nd' →
      ∃ l, fillCnGo E cns max_search r samp cnset struct nd =
        .ok (.inl l) ∧ l.length = r := by
  induction cnset with
  | nil =>
    intro struct nd sl nd' r h _ _
    rw [tierPathGo] at h
    exact absurd h (by simp)
  | cons cn rest ih =>
    intro struct nd sl nd' r h hr hopt
    rw [tierPathGo] at h
    by_cases h1 : (tierSpots cns cn).length = nd
    · rw [if_pos h1] at h
      exact absurd h (by simp)
    · rw [if_neg h1] at h
      by_cases h2 : (tierSpots cns cn).length > nd
      · rw [if_pos h2] at h
        have hsl : (tierSpots cns cn).length = sl ∧ nd = nd' := by
          have := h
          simp only [FillPath.bigger.injEq] at this
          exact this
        rw [fillCnGo, if_neg h1, if_pos h2, if_pos (by omega : r ≠ 0),
          if_neg (by rw [hsl.1, hsl.2]; omega)]
        exact ⟨_, rfl, by simp⟩
      · rw [if_neg h2] at h
        obtain ⟨l, hl, hlen⟩ := ih (setIdxs struct (tierSpots cns cn) 1)
          (nd - (tierSpots cns cn).length) sl nd' r h hr hopt
        refine ⟨l, ?_, hlen⟩
        rw [fillCnGo, if_neg h1, if_neg h2]
        exact hl

/-- C10.  With a positive `return_n`: a greedy pass that terminates
through the monometallic fast path or the exact-tier-match branch
returns a one-element list holding the single greedy ordering,
whatever sample count was requested; the requested count is honoured
(a list of exactly `return_n` orderings, or the `ValueError` guard)
only when a tier strictly exceeds the remaining dopant budget. -/
theorem fill_cn_return_n {α : Type} [LinearOrder α] [Zero α]
    [DecidableEq α] (E : List ℕ → α) (cns : List ℕ)
    (n_dope max_search : ℕ) (low_first : Bool)
    (samp : ℕ → List ℕ → ℕ → List ℕ) :
    ((tierPath cns n_dope low_first = .mono ∨
        tierPath cns n_dope low_first = .exact) →
      ∃ s, ∀ r, 0 < r →
        fillCn E cns n_dope max_search low_first r samp =
          .ok (.inl [s])) ∧
      (∀ sl nd' r, tierPath cns n_dope low_first = .bigger sl nd' →
        0 < r → r ≤ ncr sl nd' →
        ∃ l, fillCn E cns n_dope max_search low_first r samp =
          .ok (.inl l) ∧ l.length = r) := by
  constructor
  · intro hpath
    by_cases hmono : n_dope = 0 ∨ n_dope = cns.length
    · refine ⟨if n_dope = 0 then List.replicate cns.length 0
        else List.replicate cns.length 1, fun r hr => ?_⟩
      unfold fillCn
      rw [if_pos hmono]
      dsimp only
      rw [if_pos (by omega : r ≠ 0)]
    · have hgo : tierPathGo cns
          (if low_first then sortAsc cns.dedup
            else (sortAsc cns.dedup).reverse) n_dope = .exact := by
        rcases hpath with hp | hp
        · unfold tierPath at hp
          rw [if_neg hmono] at hp
          exact absurd hp (tierPathGo_ne_mono cns _ n_dope)
        · unfold tierPath at hp
          rw [if_neg hmono] at hp
          exact hp
      obtain ⟨s, hs⟩ := fillCnGo_exact E cns max_search samp _
        (List.replicate cns.length 0) n_dope hgo
      refine ⟨s, fun r hr => ?_⟩
      unfold fillCn
      rw [if_neg hmono]
      dsimp only
      rw [hs r]
      dsimp only
      rw [if_pos (by omega : r ≠ 0)]
  · intro sl nd' r hpath hr hopt
    have hmono : ¬(n_dope = 0 ∨ n_dope = cns.length) := by
      intro hm
      unfold tierPath at hpath
      rw [if_pos hm] at hpath
      exact absurd hpath (by simp)
    have hgo : tierPathGo cns
        (if low_first then sortAsc cns.dedup
          else (sortAsc cns.dedup).reverse) n_dope = .bigger sl nd' := by
      unfold tierPath at hpath
      rw [if_neg hmono] at hpath
      exact hpath
    obtain ⟨l, hl, hlen⟩ := fillCnGo_bigger E cns max_search samp _
      (List.replicate cns.length 0) n_dope sl nd' r hgo hr hopt
    refine ⟨l, ?_, hlen⟩
    unfold fillCn
    rw [if_neg hmono]
    dsimp only
    rw [hl]

/-- Witness for C10 at concrete inputs: over the 3-atom coordination
list `[4, 4, 6]`, a budget of 2 matches the CN-4 tier exactly (single
greedy result for every requested sample size), while a budget of 1
makes the CN-4 tier strictly larger and a request of 2 of the
`ncr 2 1 = 2` combinations is honoured. -/
theorem fill_cn_return_n_witness :
    (tierPath [4, 4, 6] 2 true = .exact ∧
      ∃ s, ∀ r, 0 < r →
        fillCn (fun _ => (-1 : ℚ)) [4, 4, 6] 2 50 true r
          (fun _ spots k => spots.take k) = .ok (.inl [s])) ∧
      (tierPath [4, 4, 6] 1 true = .bigger 2 1 ∧
        ∃ l, fillCn (fun _ => (-1 : ℚ)) [4, 4, 6] 1 50 true 2
            (fun _ spots k => spots.take k) = .ok (.inl l) ∧
          l.length = 2) :=
  ⟨⟨by decide,
      (fill_cn_return_n (fun _ => (-1 : ℚ)) [4, 4, 6] 2 50 true
        (fun _ spots k => spots.take k)).1 (Or.inr (by decide))⟩,
    ⟨by decide,
      (fill_cn_return_n (fun _ => (-1 : ℚ)) [4, 4, 6] 1 50 true
        (fun _ spots k => spots.take k)).2 2 1 2 (by decide) (by decide)
        (by decide)⟩⟩

end CEExpansion
